import Mathlib

/-!
Verification of the voice-allocation core of `aperiodic-oscillator`
(`src/harmonic-allocator.ts`): `centsError`, `allocateRatios` and
`allocateVoices`.

The embedding works over exact rational arithmetic (the idealization the
spec itself appeals to for its conservation property).  The JS code
compares values of `centsError(a, b) = |1200 * log2(a / b)|` against each
other and against tolerances; since `log2` is strictly monotone, those
comparisons are decided exactly over ℚ:

* `|log2 x| = log2 (max x x⁻¹)` for `x > 0`, so comparing two finite
  cents-errors is comparing `max x x⁻¹` values (`centsErrRep`, `errLt`);
  `x = 0` (harmonic 0) gives `log2 0 = -∞`, absolute value `+∞`,
  represented by `none`.
* `|1200 * log2 m| < tol` for `m = max x x⁻¹ ≥ 1` and rational
  `tol = tol.num / tol.den` is equivalent to
  `m ^ (1200 * tol.den) < 2 ^ tol.num`, an exact rational test
  (`errLtTol`).

The bridge lemmas `abs_logb_eq` / `errLt_iff_logb` below tie the
representation back to the real-valued `log2` of the source.
-/

namespace AperiodicOsc

/-- The constant `EPSILON = 1e-6` from `harmonic-allocator.ts` (exact-match
threshold in cents used while the first `maxVoices` voices are allocated). -/
def EPSILON : ℚ := 1 / 1000000

/-- JS `Math.round`: round half away from zero toward +∞, `⌊x + 1/2⌋`. -/
def jsRound (x : ℚ) : ℤ := ⌊x + 1 / 2⌋

/-- The value `max x x⁻¹`.  For `x > 0` we have `|log2 x| = log2 (symRatio x)`, so
`symRatio` is an order-faithful representation of the absolute cents error. -/
def symRatio (x : ℚ) : ℚ := max x x⁻¹

/-- Exact representation of `centsError a b = |1200 * log2 (a / b)|` from the
source: `some (symRatio (a / b))` when `a / b > 0` (the error is
`1200 * log2` of the stored value), `none` when `a / b = 0`, i.e. the rounded
harmonic is 0 and JS computes `|log2 0| = ∞`.  (Negative `a / b`, which JS
turns into `NaN`, cannot arise for the positive inputs of the spec's input
contract.) -/
def centsErrRep (a b : ℚ) : Option ℚ :=
  if 0 < a / b then some (symRatio (a / b)) else none

/-- Comparison `centsError .. < centsError ..` on representations,
`none` behaving like the IEEE `Infinity` of the source: finite `< ∞` is
true, `∞ < e` is false. -/
def errLt : Option ℚ → Option ℚ → Bool
  | some x, some y => decide (x < y)
  | some _, none => true
  | none, _ => false

/-- Decides `centsError a b < tol` (`tol` in cents) exactly: for a finite
error represented by `m = symRatio (a/b) ≥ 1`,
`1200 * log2 m < tol.num / tol.den  ↔  m ^ (1200 * tol.den) < 2 ^ tol.num`;
the power test is evaluated over ℕ on `m`'s numerator and denominator
(`m > 1` forces `m.num > m.den > 0`, and for `tol ≤ 0` the test is false
since the error is positive).  An infinite error (`none`) is never below any
tolerance. -/
def errLtTol (a b tol : ℚ) : Bool :=
  match centsErrRep a b with
  | none => false
  | some m =>
    if m = 1 then decide (0 < tol)
    else if tol.num ≤ 0 then false
    else decide (m.num.toNat ^ (1200 * tol.den) < 2 ^ tol.num.toNat * m.den ^ (1200 * tol.den))

/-- Body of the `while (result[i] > 0.1 * denominator)` contraction search
of `allocateRatios` (lines 28–36 of `harmonic-allocator.ts`) for one voice
with base ratio `v` and incoming partial `ratio = r`, structurally recursive
on a gas parameter so that it evaluates by kernel reduction: if the guard
`0.1 * d < v` holds, test `centsError(round(r * d / v) * v, r * d) < jnd`;
on success return the contracted base ratio `v / d`, otherwise increment the
denominator.  When the guard fails the voice cannot absorb the partial
(`none`).  The `gas = 0` branch also returns `none`: as proved in
`contractLoop_gas_zero`, when `contractSearch` below supplies
`gas = ⌈10 * v⌉.toNat + 1 - d`, gas can only run out once the guard is
false, so this branch coincides with the loop's normal exit. -/
def contractLoop (v r jnd : ℚ) : ℕ → ℕ → Option ℚ
  | 0, _ => none
  | gas + 1, d =>
    if (1 : ℚ) / 10 * d < v then
      if errLtTol ((jsRound (r * d / v) : ℚ) * v) (r * d) jnd then some (v / d)
      else contractLoop v r jnd gas (d + 1)
    else none

/-- The contraction search of lines 28–36 starting at `denominator = d`
(the source always starts at `d = 2`): the guard `0.1 * denominator < v`
bounds the number of iterations by `⌈10 * v⌉.toNat + 1 - d`. -/
def contractSearch (v r jnd : ℚ) (d : ℕ) : Option ℚ :=
  contractLoop v r jnd ((⌈10 * v⌉).toNat + 1 - d) d

/-- When the gas supplied by `contractSearch` runs out, the loop guard is
false anyway, so `contractLoop`'s `gas = 0` branch returns exactly what the
source's `while` loop returns. -/
theorem contractLoop_gas_zero (v : ℚ) (d : ℕ) (h : (⌈10 * v⌉).toNat + 1 - d = 0) :
    ¬ ((1 : ℚ) / 10 * d < v) := by
  intro hlt
  have hd : (d : ℚ) < 10 * v := by linarith
  have hd' : (d : ℤ) < ⌈10 * v⌉ := by
    rw [Int.lt_ceil]; exact_mod_cast hd
  have hd2 : d < (⌈10 * v⌉).toNat := Int.lt_toNat.mpr hd'
  omega

/-- The inner `for (let i = 0; ...)` scan over existing voices of
`allocateRatios` (lines 23–37), for one incoming `ratio = r`.  `stepTol` is
the per-ratio tolerance variable of line 22 (used by the harmonic-acceptance
test of line 25), `jnd` the caller's tolerance (used by the contraction test
of line 31).  Returns `some voices'` when the partial was accepted
(`continue allocation`), where `voices'` is the voice list after a possible
in-place contraction `result[i] /= denominator`, and `none` when no voice
absorbed the partial. -/
def scanVoices (jnd stepTol r : ℚ) : List ℚ → Option (List ℚ)
  | [] => none
  | v :: rest =>
    if errLtTol ((jsRound (r / v) : ℚ) * v) r stepTol then some (v :: rest)
    else
      match contractSearch v r jnd 2 with
      | some v2 => some (v2 :: rest)
      | none =>
        match scanVoices jnd stepTol r rest with
        | some rest2 => some (v :: rest2)
        | none => none

/-- One iteration of the `allocation:` loop of `allocateRatios` (lines
20–41): compute the per-ratio tolerance (`EPSILON` while fewer than
`maxVoices` voices exist, else the caller's `jnd`), scan the voices, and if
no voice absorbed the partial append a new voice when capacity remains. -/
def allocStep (maxVoices : ℕ) (jnd : ℚ) (result : List ℚ) (r : ℚ) : List ℚ :=
  let tol := if result.length < maxVoices then EPSILON else jnd
  match scanVoices jnd tol r result with
  | some result2 => result2
  | none => if result.length < maxVoices then result ++ [r] else result

/-- The function `allocateRatios` (lines 18–43): fold the `allocation:` loop over the
spectrum, starting from no voices. -/
def allocateRatios (spectrum : List ℚ) (maxVoices : ℕ) (jnd : ℚ) : List ℚ :=
  spectrum.foldl (allocStep maxVoices jnd) []

/-- The best-voice scan of `allocateVoices` (lines 63–74): fold over the
remaining voices with running index `j` and accumulator
`(leastError, bestIndex, bestHarmonic)`, updating only on a strict `<`
comparison.  The initial accumulator is `(Infinity, 0, 1)`, i.e.
`(none, 0, 1)` in the error representation. -/
def bestLoop (r : ℚ) : List ℚ → ℕ → Option ℚ × ℕ × ℤ → Option ℚ × ℕ × ℤ
  | [], _, acc => acc
  | v :: rest, j, acc =>
    let h := jsRound (r / v)
    let e := centsErrRep ((h : ℚ) * v) r
    if errLt e acc.1 then bestLoop r rest (j + 1) (e, j, h)
    else bestLoop r rest (j + 1) acc

/-- The pair `(bestIndex, bestHarmonic)` selected for partial `r` by the scan of
lines 63–74. -/
def bestVoice (voiceRatios : List ℚ) (r : ℚ) : ℕ × ℤ :=
  (bestLoop r voiceRatios 0 (none, 0, 1)).2

/-- Extend a JS array to length (at least) `n`, the new slots being holes
(`undefined`, modelled as `none`). -/
def padTo (t : List (Option ℚ)) (n : ℕ) : List (Option ℚ) :=
  t ++ List.replicate (n - t.length) none

/-- Lines 76–77: `voiceAmplitudes[bestIndex][bestHarmonic] = (existing ?? 0)
+ amplitudes[i]` on a sparse JS array — writing at index `k` extends the
array with holes up to `k`, and a hole (or absent slot) reads as `0` via
`?? 0`. -/
def sparseAdd (t : List (Option ℚ)) (k : ℕ) (amp : ℚ) : List (Option ℚ) :=
  let t2 := padTo t (k + 1)
  t2.set k (some ((t2.getD k none).getD 0 + amp))

/-- One iteration of the assignment loop of `allocateVoices` (lines 61–78)
for the partial `p = (ratio, amplitude)`.  (For the positive inputs of the
spec's contract `bestHarmonic ≥ 0`, so the `Int.toNat` cast is exact.) -/
def assignStep (voiceRatios : List ℚ) (tabs : List (List (Option ℚ))) (p : ℚ × ℚ) :
    List (List (Option ℚ)) :=
  tabs.set (bestVoice voiceRatios p.1).1
    (sparseAdd (tabs.getD (bestVoice voiceRatios p.1).1 [])
      (bestVoice voiceRatios p.1).2.toNat p.2)

/-- The amplitude-assignment stage of `allocateVoices` (lines 60–78):
starting from one empty table per voice, assign every
`(ratio, amplitude)` pair. -/
def assignAmplitudes (voiceRatios spectrum amplitudes : List ℚ) :
    List (List (Option ℚ)) :=
  (spectrum.zip amplitudes).foldl (assignStep voiceRatios) (voiceRatios.map fun _ => [])

/-- The function `allocateVoices` (lines 53–89) before the final cents conversion: the
voice ratios from `allocateRatios` paired with the densified amplitude
tables — the repair pass of lines 79–84 turns every hole below each table's
length into an explicit `0`, which is exactly `Option.getD · 0` applied
pointwise. -/
def allocateVoicesCore (spectrum amplitudes : List ℚ) (maxVoices : ℕ) (jnd : ℚ) :
    List ℚ × List (List ℚ) :=
  let voiceRatios := allocateRatios spectrum maxVoices jnd
  (voiceRatios,
    (assignAmplitudes voiceRatios spectrum amplitudes).map (List.map fun o => o.getD 0))

/-- The conversion `valueToCents(x) = Math.log2(x) * 1200` (lines 3–5). -/
noncomputable def valueToCents (x : ℚ) : ℝ := Real.logb 2 (x : ℝ) * 1200

/-- The function `allocateVoices` (lines 53–89): voice detunings in cents paired with the
dense per-voice harmonic amplitude tables. -/
noncomputable def allocateVoices (spectrum amplitudes : List ℚ) (maxVoices : ℕ) (jnd : ℚ) :
    List ℝ × List (List ℚ) :=
  ((allocateVoicesCore spectrum amplitudes maxVoices jnd).1.map valueToCents,
    (allocateVoicesCore spectrum amplitudes maxVoices jnd).2)

/-- Step-indexed version of the `while` loop of lines 29–36, used to state
termination: `none` means the fuel ran out before the loop exited. -/
def contractSearchFuel (fuel : ℕ) (v r jnd : ℚ) (d : ℕ) : Option (Option ℚ) :=
  match fuel with
  | 0 => none
  | fuel + 1 =>
    if (1 : ℚ) / 10 * d < v then
      if errLtTol ((jsRound (r * d / v) : ℚ) * v) (r * d) jnd then some (some (v / d))
      else contractSearchFuel fuel v r jnd (d + 1)
    else some none

/-- The representation of `error_j = centsError(round(ratio /
voiceRatios[j]) * voiceRatios[j], ratio)` computed at line 67–68 for voice
index `k`. -/
def voiceErr (voiceRatios : List ℚ) (r : ℚ) (k : ℕ) : Option ℚ :=
  centsErrRep ((jsRound (r / voiceRatios.getD k 0) : ℚ) * voiceRatios.getD k 0) r

/-- Interpret an error representation in `WithTop ℚ` (`none` = `Infinity`),
on which `errLt` is the strict order of a linear order. -/
def toWT : Option ℚ → WithTop ℚ
  | none => ⊤
  | some x => (x : WithTop ℚ)

/-! ### Lemmas about the contraction search -/

/-- When the loop guard is false the contraction loop exits immediately,
whatever gas remains. -/
theorem contractLoop_of_guard_false (v r jnd : ℚ) (d : ℕ)
    (h : ¬ ((1 : ℚ) / 10 * d < v)) : ∀ gas, contractLoop v r jnd gas d = none := by
  intro gas
  cases gas with
  | zero => rfl
  | succ g => rw [contractLoop, if_neg h]

/-- Any successful contraction starting at denominator `d ≥ 1` divides the
base ratio by some accepted denominator `k ≥ d` satisfying the guard
`0.1 * k < v`, and the contracted ratio stays above the absolute constant
`1/10`. -/
theorem contractLoop_some (v r jnd : ℚ) :
    ∀ (gas d : ℕ) (v2 : ℚ), 0 < d → contractLoop v r jnd gas d = some v2 →
      1 / 10 < v2 ∧ ∃ k : ℕ, d ≤ k ∧ (1 : ℚ) / 10 * k < v ∧ v2 = v / k := by
  intro gas
  induction gas with
  | zero => intro d v2 _ h; simp [contractLoop] at h
  | succ g ih =>
    intro d v2 hd h
    by_cases hg : (1 : ℚ) / 10 * d < v
    · rw [contractLoop, if_pos hg] at h
      by_cases he : errLtTol ((jsRound (r * d / v) : ℚ) * v) (r * d) jnd
      · rw [if_pos he] at h
        obtain rfl : v / d = v2 := by injection h
        have hdq : (0 : ℚ) < (d : ℚ) := by exact_mod_cast hd
        refine ⟨?_, d, le_refl d, hg, rfl⟩
        rw [lt_div_iff₀ hdq]
        linarith
      · rw [if_neg he] at h
        obtain ⟨h1, k, hk, hkg, hkv⟩ := ih (d + 1) v2 (Nat.succ_pos d) h
        exact ⟨h1, k, by omega, hkg, hkv⟩
    · rw [contractLoop, if_neg hg] at h
      exact absurd h (by simp)

/-- Same statement for `contractSearch` (the loop as entered by the
source). -/
theorem contractSearch_some (v r jnd : ℚ) (d : ℕ) (v2 : ℚ) (hd : 0 < d)
    (h : contractSearch v r jnd d = some v2) :
    1 / 10 < v2 ∧ ∃ k : ℕ, d ≤ k ∧ (1 : ℚ) / 10 * k < v ∧ v2 = v / k :=
  contractLoop_some v r jnd _ d v2 hd h

/-- The gas supplied by `contractSearch` is irrelevant as long as it
dominates the guard bound: the step-indexed loop run with any sufficient
fuel converges to `contractSearch`'s value rather than running out. -/
theorem contractSearchFuel_converges (v r jnd : ℚ) :
    ∀ (fuel d : ℕ), (⌈10 * v⌉).toNat + 1 - d < fuel →
      contractSearchFuel fuel v r jnd d =
        some (contractLoop v r jnd ((⌈10 * v⌉).toNat + 1 - d) d) := by
  intro fuel
  induction fuel with
  | zero => intro d h; omega
  | succ f ih =>
    intro d h
    by_cases hg : (1 : ℚ) / 10 * d < v
    · have hgas : (⌈10 * v⌉).toNat + 1 - d ≠ 0 := fun h0 => contractLoop_gas_zero v d h0 hg
      obtain ⟨g, hg'⟩ : ∃ g, (⌈10 * v⌉).toNat + 1 - d = g + 1 :=
        ⟨((⌈10 * v⌉).toNat + 1 - d) - 1, by omega⟩
      rw [hg', contractSearchFuel, if_pos hg, contractLoop, if_pos hg]
      by_cases he : errLtTol ((jsRound (r * d / v) : ℚ) * v) (r * d) jnd
      · rw [if_pos he, if_pos he]
      · rw [if_neg he, if_neg he]
        have hg2 : (⌈10 * v⌉).toNat + 1 - (d + 1) = g := by omega
        rw [ih (d + 1) (by omega), hg2]
    · rw [contractSearchFuel, if_neg hg, contractLoop_of_guard_false v r jnd d hg]

/-! ### Structural lemmas about the ratio allocator -/

/-- Generic fold invariant, with membership of the consumed element made
available to the preservation step. -/
theorem foldl_invariant_mem {α β : Type} (P : β → Prop) (f : β → α → β) :
    ∀ (l : List α) (b : β), (∀ b2 a, a ∈ l → P b2 → P (f b2 a)) → P b → P (l.foldl f b) := by
  intro l
  induction l with
  | nil => intro b _ hb; exact hb
  | cons x xs ih =>
    intro b hf hb
    exact ih (f b x) (fun b2 a ha hb2 => hf b2 a (List.mem_cons_of_mem x ha) hb2)
      (hf b x (List.mem_cons_self x xs) hb)

/-- The voice scan never changes the number of voices: acceptance leaves the
list untouched and contraction replaces one entry in place. -/
theorem scanVoices_length (jnd stepTol r : ℚ) :
    ∀ (vs vs2 : List ℚ), scanVoices jnd stepTol r vs = some vs2 → vs2.length = vs.length := by
  intro vs
  induction vs with
  | nil => intro vs2 h; exact absurd h (by simp [scanVoices])
  | cons v rest ih =>
    intro vs2 h
    rw [scanVoices] at h
    split at h
    · obtain rfl : v :: rest = vs2 := by injection h
      rfl
    · split at h
      · next v2 _ =>
        obtain rfl : v2 :: rest = vs2 := by injection h
        simp
      · split at h
        · next rest2 heq =>
          obtain rfl : v :: rest2 = vs2 := by injection h
          simp [ih rest2 heq]
        · exact absurd h (by simp)

/-- The voice scan preserves positivity of all base ratios: a contraction
divides a ratio by a positive denominator and in fact leaves it above
`1/10`. -/
theorem scanVoices_pos (jnd stepTol r : ℚ) :
    ∀ (vs vs2 : List ℚ), (∀ v ∈ vs, 0 < v) → scanVoices jnd stepTol r vs = some vs2 →
      ∀ v ∈ vs2, 0 < v := by
  intro vs
  induction vs with
  | nil => intro vs2 _ h; exact absurd h (by simp [scanVoices])
  | cons v rest ih =>
    intro vs2 hpos h
    rw [scanVoices] at h
    split at h
    · obtain rfl : v :: rest = vs2 := by injection h
      exact hpos
    · split at h
      · next v2 heq =>
        obtain rfl : v2 :: rest = vs2 := by injection h
        intro w hw
        rcases List.mem_cons.mp hw with rfl | hw2
        · have := (contractSearch_some v r jnd 2 w (by norm_num) heq).1
          linarith
        · exact hpos w (List.mem_cons_of_mem v hw2)
      · split at h
        · next rest2 heq =>
          obtain rfl : v :: rest2 = vs2 := by injection h
          intro w hw
          rcases List.mem_cons.mp hw with rfl | hw2
          · exact hpos w (List.mem_cons_self w rest)
          · exact ih rest2 (fun u hu => hpos u (List.mem_cons_of_mem v hu)) heq w hw2
        · exact absurd h (by simp)

/-- One allocation step keeps the voice count at most `maxVoices`. -/
theorem allocStep_length_le (m : ℕ) (jnd : ℚ) (res : List ℚ) (r : ℚ)
    (h : res.length ≤ m) : (allocStep m jnd res r).length ≤ m := by
  rw [allocStep]
  split
  · next res2 heq => rw [scanVoices_length _ _ _ _ _ heq]; exact h
  · split
    · next hlt => simp; omega
    · exact h

/-- One allocation step never shrinks the voice list. -/
theorem allocStep_length_mono (m : ℕ) (jnd : ℚ) (res : List ℚ) (r : ℚ) :
    res.length ≤ (allocStep m jnd res r).length := by
  rw [allocStep]
  split
  · next res2 heq => rw [scanVoices_length _ _ _ _ _ heq]
  · split
    · simp
    · exact le_refl _

/-- One allocation step preserves positivity of the voice ratios. -/
theorem allocStep_pos (m : ℕ) (jnd : ℚ) (res : List ℚ) (r : ℚ)
    (hres : ∀ v ∈ res, 0 < v) (hr : 0 < r) : ∀ v ∈ allocStep m jnd res r, 0 < v := by
  rw [allocStep]
  split
  · next res2 heq => exact scanVoices_pos _ _ _ _ _ hres heq
  · split
    · intro v hv
      rcases List.mem_append.mp hv with hv2 | hv2
      · exact hres v hv2
      · rcases List.mem_singleton.mp hv2 with rfl
        exact hr
    · exact hres

/-- The allocator `allocateRatios` allocates at most `maxVoices` voices
(spec §3 invariant, first half of the voice bound). -/
theorem allocateRatios_length_le (s : List ℚ) (m : ℕ) (jnd : ℚ) :
    (allocateRatios s m jnd).length ≤ m :=
  foldl_invariant_mem (fun l => l.length ≤ m) (allocStep m jnd) s []
    (fun res r _ h => allocStep_length_le m jnd res r h) (Nat.zero_le m)

/-- All voice ratios produced from a positive spectrum are positive. -/
theorem allocateRatios_pos (s : List ℚ) (m : ℕ) (jnd : ℚ)
    (hs : ∀ r ∈ s, 0 < r) : ∀ v ∈ allocateRatios s m jnd, 0 < v :=
  foldl_invariant_mem (fun l => ∀ v ∈ l, 0 < v) (allocStep m jnd) s []
    (fun res r hr h => allocStep_pos m jnd res r h (hs r hr)) (by intro v hv; cases hv)

/-- With at least one voice available and a nonempty spectrum, at least one
voice is allocated (the first partial, failing every scan of an empty voice
list, is pushed). -/
theorem allocateRatios_ne_nil (s : List ℚ) (m : ℕ) (jnd : ℚ)
    (hm : 0 < m) (hs : s ≠ []) : allocateRatios s m jnd ≠ [] := by
  obtain ⟨r, rest, rfl⟩ : ∃ r rest, s = r :: rest := by
    cases s with
    | nil => exact absurd rfl hs
    | cons a l => exact ⟨a, l, rfl⟩
  have h1 : allocStep m jnd [] r = [r] := by
    rw [allocStep]
    simp [scanVoices, hm]
  have h2 : 0 < (List.foldl (allocStep m jnd) (allocStep m jnd [] r) rest).length := by
    refine foldl_invariant_mem (fun l => 0 < l.length) (allocStep m jnd) rest _
      (fun res r2 _ h => lt_of_lt_of_le h (allocStep_length_mono m jnd res r2)) ?_
    rw [h1]; simp
  intro hcontra
  rw [allocateRatios] at hcontra
  rw [List.foldl_cons] at hcontra
  rw [hcontra] at h2
  exact absurd h2 (by simp)

/-! ### Lemmas about sparse amplitude tables -/

/-- Reading the densified table at `k` is reading the sparse table at `k`
with holes as `0`. -/
theorem getD_map_getD (t : List (Option ℚ)) (k : ℕ) :
    (t.map fun o => o.getD 0).getD k 0 = (t.getD k none).getD 0 := by
  induction t generalizing k with
  | nil => simp
  | cons a l ih =>
    cases k with
    | zero => simp
    | succ n => simpa using ih n

/-- Padding reaches exactly `max` of the old length and the requested one. -/
theorem padTo_length (t : List (Option ℚ)) (n : ℕ) :
    (padTo t n).length = max t.length n := by
  simp [padTo]; omega

/-- Padding adds only holes, so sparse reads are unchanged. -/
theorem padTo_getD (t : List (Option ℚ)) (n k : ℕ) :
    (padTo t n).getD k none = t.getD k none := by
  rcases Nat.lt_or_ge k t.length with h | h
  · exact List.getD_append _ _ _ _ h
  · rw [padTo, List.getD_append_right _ _ _ _ h, List.getD_eq_default _ _ h]
    rcases Nat.lt_or_ge (k - t.length) (n - t.length) with h2 | h2
    · rw [List.getD_eq_getElem _ _ (by simpa using h2), List.getElem_replicate]
    · exact List.getD_eq_default _ _ (by simpa using h2)

/-- Padding adds only holes, which densify to `0`, so the dense sum is
unchanged. -/
theorem padTo_sum (t : List (Option ℚ)) (n : ℕ) :
    ((padTo t n).map fun o => o.getD 0).sum = (t.map fun o => o.getD 0).sum := by
  simp [padTo]

/-- Replacing entry `k` changes a mapped sum by the difference of the images
of the new and old entries (stated addition-only). -/
theorem sum_map_set {α : Type} (g : α → ℚ) (d : α) :
    ∀ (l : List α) (k : ℕ) (x : α), k < l.length →
      ((l.set k x).map g).sum + g (l.getD k d) = (l.map g).sum + g x := by
  intro l
  induction l with
  | nil => intro k x h; simp at h
  | cons a tl ih =>
    intro k x h
    cases k with
    | zero => simp [List.set]; ring
    | succ n =>
      have hn : n < tl.length := by simpa using h
      have := ih n x hn
      simp only [List.set, List.map_cons, List.sum_cons, List.getD_cons_succ]
      linarith

/-- The accumulation of lines 76–77 adds exactly the incoming amplitude to
the dense sum of the table. -/
theorem sparseAdd_sum (t : List (Option ℚ)) (k : ℕ) (amp : ℚ) :
    ((sparseAdd t k amp).map fun o => o.getD 0).sum
      = (t.map fun o => o.getD 0).sum + amp := by
  have hlen : k < (padTo t (k + 1)).length := by
    rw [padTo_length]; omega
  have h := sum_map_set (fun o => o.getD 0) none (padTo t (k + 1)) k
    (some (((padTo t (k + 1)).getD k none).getD 0 + amp)) hlen
  rw [padTo_sum] at h
  rw [sparseAdd]
  simp only [Option.getD_some] at h
  linarith

/-- Sparse tables never hold an explicit `none` value, but reading past the
end yields the default; after `sparseAdd` the written index is set. -/
theorem sparseAdd_getD_eq (t : List (Option ℚ)) (k : ℕ) (amp : ℚ) :
    (sparseAdd t k amp).getD k none = some ((t.getD k none).getD 0 + amp) := by
  have hlen : k < (padTo t (k + 1)).length := by
    rw [padTo_length]; omega
  rw [sparseAdd, List.getD_eq_getD_get?, List.get?_eq_getElem?,
    List.getElem?_set_eq_of_lt _ hlen, Option.getD_some, padTo_getD]

/-- Accumulation via `sparseAdd` does not touch sparse entries at other indices. -/
theorem sparseAdd_getD_ne (t : List (Option ℚ)) (k : ℕ) (amp : ℚ) (i : ℕ) (h : i ≠ k) :
    (sparseAdd t k amp).getD i none = t.getD i none := by
  rw [sparseAdd, List.getD_eq_getD_get?, List.get?_eq_getElem?,
    List.getElem?_set_ne (by omega), ← List.get?_eq_getElem?, ← List.getD_eq_getD_get?,
    padTo_getD]

/-! ### Index and harmonic bounds of the best-voice scan -/

/-- The scan either keeps the incoming accumulator's index or returns the
index of one of the scanned voices. -/
theorem bestLoop_idx (r : ℚ) :
    ∀ (rest : List ℚ) (j : ℕ) (acc : Option ℚ × ℕ × ℤ),
      (bestLoop r rest j acc).2.1 = acc.2.1 ∨
        (j ≤ (bestLoop r rest j acc).2.1 ∧ (bestLoop r rest j acc).2.1 < j + rest.length) := by
  intro rest
  induction rest with
  | nil => intro j acc; exact Or.inl rfl
  | cons v tl ih =>
    intro j acc
    have hlen : (v :: tl).length = tl.length + 1 := rfl
    rw [bestLoop]
    split
    · rcases ih (j + 1) (centsErrRep ((jsRound (r / v) : ℚ) * v) r, j, jsRound (r / v)) with
        h | ⟨h1, h2⟩
      · right
        rw [h]
        exact ⟨le_refl j, by show j < j + (v :: tl).length; have := hlen; omega⟩
      · right
        exact ⟨by omega, by have := hlen; omega⟩
    · rcases ih (j + 1) acc with h | ⟨h1, h2⟩
      · exact Or.inl h
      · right
        exact ⟨by omega, by have := hlen; omega⟩

/-- For a nonempty voice list the selected index is a valid voice index. -/
theorem bestVoice_lt (vr : List ℚ) (r : ℚ) (h : vr ≠ []) :
    (bestVoice vr r).1 < vr.length := by
  have hl : 0 < vr.length := List.length_pos.mpr h
  rcases bestLoop_idx r vr 0 (none, 0, 1) with h2 | ⟨_, h2⟩
  · rw [bestVoice, h2]; exact hl
  · rw [bestVoice]; simpa using h2

/-- A strict-`<` update can only fire on a finite error, and a finite error
means the rounded harmonic times the (positive) voice ratio is positive, so
the harmonic is at least 1; the initial accumulator holds harmonic 1, so the
selected harmonic is always at least 1 for positive inputs. -/
theorem bestLoop_harmonic_pos (r : ℚ) (hr : 0 < r) :
    ∀ (rest : List ℚ) (j : ℕ) (acc : Option ℚ × ℕ × ℤ),
      (∀ v ∈ rest, 0 < v) → 1 ≤ acc.2.2 → 1 ≤ (bestLoop r rest j acc).2.2 := by
  intro rest
  induction rest with
  | nil => intro j acc _ hacc; exact hacc
  | cons v tl ih =>
    intro j acc hpos hacc
    rw [bestLoop]
    split
    · next hupd =>
      refine ih (j + 1) _ (fun u hu => hpos u (List.mem_cons_of_mem v hu)) ?_
      have hv : 0 < v := hpos v (List.mem_cons_self v tl)
      -- the update fired, so the error is finite: the representation is `some`
      rcases he : centsErrRep ((jsRound (r / v) : ℚ) * v) r with _ | m
      · rw [he] at hupd; simp [errLt] at hupd
      · have hdiv : 0 < ((jsRound (r / v) : ℚ) * v) / r := by
          by_contra hc
          rw [centsErrRep, if_neg hc] at he
          exact absurd he (by simp)
        have hpos2 : 0 < (jsRound (r / v) : ℚ) * v := by
          rcases div_pos_iff.mp hdiv with ⟨h1, _⟩ | ⟨_, h2⟩
          · exact h1
          · linarith
        have hq : 0 < (jsRound (r / v) : ℚ) := by
          by_contra hc
          push_neg at hc
          nlinarith
        have hz : 0 < jsRound (r / v) := by exact_mod_cast hq
        show 1 ≤ jsRound (r / v)
        omega
    · exact ih (j + 1) acc (fun u hu => hpos u (List.mem_cons_of_mem v hu)) hacc

/-! ### Invariants of the assignment fold -/

/-- One assignment step keeps one table per voice. -/
theorem assignStep_length (vr : List ℚ) (tabs : List (List (Option ℚ))) (p : ℚ × ℚ) :
    (assignStep vr tabs p).length = tabs.length := by
  rw [assignStep, List.length_set]

/-- There is exactly one amplitude table per allocated voice. -/
theorem assignAmplitudes_length (vr s a : List ℚ) :
    (assignAmplitudes vr s a).length = vr.length := by
  rw [assignAmplitudes]
  exact foldl_invariant_mem (fun tabs => tabs.length = vr.length) (assignStep vr) (s.zip a)
    (vr.map fun _ => []) (fun tabs p _ h => by
      show (assignStep vr tabs p).length = vr.length
      rw [assignStep_length]; exact h) (by simp)

/-- One assignment step adds exactly the partial's amplitude to the total
dense sum of all tables (the write lands inside the table list because the
best index is a valid voice index). -/
theorem assignStep_sum (vr : List ℚ) (tabs : List (List (Option ℚ))) (p : ℚ × ℚ)
    (h : (bestVoice vr p.1).1 < tabs.length) :
    ((assignStep vr tabs p).map fun t => (t.map fun o => o.getD 0).sum).sum
      = ((tabs.map fun t => (t.map fun o => o.getD 0).sum).sum) + p.2 := by
  have hs := sum_map_set (fun t => (t.map fun o => o.getD 0).sum) [] tabs (bestVoice vr p.1).1
    (sparseAdd (tabs.getD (bestVoice vr p.1).1 []) (bestVoice vr p.1).2.toNat p.2) h
  simp only [sparseAdd_sum] at hs
  rw [assignStep]
  linarith

/-- Folding the assignment over any pair list adds the sum of the
amplitudes to the total dense sum. -/
theorem assignFold_sum (vr : List ℚ) (hne : vr ≠ []) :
    ∀ (pairs : List (ℚ × ℚ)) (tabs : List (List (Option ℚ))), tabs.length = vr.length →
      ((pairs.foldl (assignStep vr) tabs).map fun t => (t.map fun o => o.getD 0).sum).sum
        = ((tabs.map fun t => (t.map fun o => o.getD 0).sum).sum)
          + (pairs.map Prod.snd).sum := by
  intro pairs
  induction pairs with
  | nil => intro tabs _; simp
  | cons p ps ih =>
    intro tabs hlen
    rw [List.foldl_cons, ih _ (by rw [assignStep_length, hlen]),
      assignStep_sum vr tabs p (by rw [hlen]; exact bestVoice_lt vr p.1 hne)]
    simp only [List.map_cons, List.sum_cons]
    ring

/-- Zipping index-aligned equal-length lists and summing the second
components recovers the sum of the second list. -/
theorem zip_snd_sum : ∀ (s a : List ℚ), s.length = a.length →
    ((s.zip a).map Prod.snd).sum = a.sum := by
  intro s
  induction s with
  | nil =>
    intro a h
    obtain rfl : a = [] := List.eq_nil_of_length_eq_zero h.symm
    simp
  | cons x xs ih =>
    intro a h
    cases a with
    | nil => simp at h
    | cons y ys =>
      simp only [List.zip_cons_cons, List.map_cons, List.sum_cons]
      rw [ih ys (by simpa using h)]

/-- A sparse-table entry read in range is a member of the table list. -/
theorem getD_mem_of_lt {α : Type} (l : List α) (k : ℕ) (d : α) (h : k < l.length) :
    l.getD k d ∈ l := by
  rw [List.getD_eq_getElem _ _ h]
  exact List.getElem_mem h

/-- For positive inputs no assignment ever writes at harmonic index 0, so
the sparse tables keep a hole there. -/
theorem assignStep_zero_inv (vr : List ℚ) (tabs : List (List (Option ℚ))) (p : ℚ × ℚ)
    (hr : 0 < p.1) (hpos : ∀ v ∈ vr, 0 < v)
    (h : ∀ t ∈ tabs, t.getD 0 none = none) :
    ∀ t ∈ assignStep vr tabs p, t.getD 0 none = none := by
  intro t ht
  rw [assignStep] at ht
  rcases List.mem_or_eq_of_mem_set ht with ht2 | rfl
  · exact h t ht2
  · have hbh : 1 ≤ (bestVoice vr p.1).2 :=
      bestLoop_harmonic_pos p.1 hr vr 0 (none, 0, 1) hpos (by norm_num)
    rw [sparseAdd_getD_ne _ _ _ 0 (by omega)]
    rcases Nat.lt_or_ge (bestVoice vr p.1).1 tabs.length with hlt | hge
    · exact h _ (getD_mem_of_lt tabs _ [] hlt)
    · rw [List.getD_eq_default _ _ hge]
      rfl

/-- After `sparseAdd`, the last entry of the sparse table is still an
assigned (non-hole) cell: either the write extended the table and the last
index is the one just written, or the write stayed inside and the old last
entry survives. -/
theorem sparseAdd_last (t : List (Option ℚ)) (k : ℕ) (amp : ℚ)
    (h : ∀ o, t.getLast? = some o → o.isSome) :
    ∀ o, (sparseAdd t k amp).getLast? = some o → o.isSome := by
  intro o ho
  rcases Nat.lt_or_ge k (t.length - 1) with hk | hk
  · -- the write stays strictly below the last index: last entry unchanged
    have hpad : padTo t (k + 1) = t := by
      rw [padTo]
      have h0 : k + 1 - t.length = 0 := by omega
      rw [h0]
      simp
    have hlast : (sparseAdd t k amp).getLast? = t.getLast? := by
      rw [sparseAdd, hpad, List.getLast?_eq_getElem?, List.length_set,
        List.getElem?_set_ne (by omega), ← List.getLast?_eq_getElem?]
    rw [hlast] at ho
    exact h o ho
  · -- the write is at (or beyond) the last index: the last entry is `some`
    have hlen : (sparseAdd t k amp).length = max t.length (k + 1) := by
      rw [sparseAdd, List.length_set, padTo_length]
    have hmax : max t.length (k + 1) - 1 = k := by omega
    rw [List.getLast?_eq_getElem?, hlen, hmax, sparseAdd,
      List.getElem?_set_eq_of_lt _ (by rw [padTo_length]; omega)] at ho
    obtain rfl : some (((padTo t (k + 1)).getD k none).getD 0 + amp) = o := by
      injection ho
    rfl

/-- If every scanned voice produces an infinite error representation, the
strict-`<` update never fires and the accumulator survives unchanged. -/
theorem bestLoop_no_update (r : ℚ) :
    ∀ (rest : List ℚ) (j : ℕ) (acc : Option ℚ × ℕ × ℤ),
      (∀ v ∈ rest, centsErrRep ((jsRound (r / v) : ℚ) * v) r = none) →
      bestLoop r rest j acc = acc := by
  intro rest
  induction rest with
  | nil => intro j acc _; rfl
  | cons v tl ih =>
    intro j acc hall
    rw [bestLoop, hall v (List.mem_cons_self v tl)]
    have : errLt none acc.1 = false := by cases acc.1 <;> rfl
    rw [this]
    simp only [Bool.false_eq_true, if_false]
    exact ih (j + 1) acc fun u hu => hall u (List.mem_cons_of_mem v hu)

/-! ### Claim theorems -/

/-- C1.  For every input spectrum of positive ratios with an index-aligned
amplitude sequence of the same length, positive `maxVoices` and positive
tolerance, `allocateVoices` assigns each partial's amplitude into exactly
one `(voice, harmonic)` cell, amplitudes merging additively on collision:
over the exact rational arithmetic of this embedding, the sum of all
entries of all returned voice amplitude tables equals the sum of the input
amplitudes. -/
theorem allocateVoices_amplitude_conservation (s a : List ℚ) (m : ℕ) (jnd : ℚ)
    (hlen : s.length = a.length) (hpos : ∀ r ∈ s, 0 < r) (hm : 0 < m) (hjnd : 0 < jnd) :
    ((allocateVoices s a m jnd).2.map List.sum).sum = a.sum := by
  show ((allocateVoicesCore s a m jnd).2.map List.sum).sum = a.sum
  cases s with
  | nil =>
    obtain rfl : a = [] := List.eq_nil_of_length_eq_zero hlen.symm
    simp [allocateVoicesCore, assignAmplitudes, allocateRatios]
  | cons r rest =>
    have hne : allocateRatios (r :: rest) m jnd ≠ [] :=
      allocateRatios_ne_nil _ m jnd hm (by simp)
    show (((assignAmplitudes (allocateRatios (r :: rest) m jnd) (r :: rest) a).map
      (List.map fun o => o.getD 0)).map List.sum).sum = a.sum
    rw [List.map_map]
    have hcomp : (List.sum ∘ List.map fun o : Option ℚ => o.getD 0)
        = fun t => (t.map fun o : Option ℚ => o.getD 0).sum := rfl
    rw [hcomp, assignAmplitudes,
      assignFold_sum (allocateRatios (r :: rest) m jnd) hne ((r :: rest).zip a) _ (by simp),
      zip_snd_sum (r :: rest) a hlen]
    simp [List.map_map]

/-- Witness for C1 at the concrete input `spectrum [1]`, `amplitudes [7]`,
`maxVoices 1`, `tolerance 1`. -/
theorem allocateVoices_amplitude_conservation_witness :
    (([(1 : ℚ)].length = [(7 : ℚ)].length) ∧ (∀ r ∈ [(1 : ℚ)], 0 < r) ∧ 0 < 1 ∧ (0 : ℚ) < 1) ∧
    ((allocateVoices [(1 : ℚ)] [(7 : ℚ)] 1 1).2.map List.sum).sum = [(7 : ℚ)].sum :=
  ⟨⟨rfl, by decide, by decide, by decide⟩,
    allocateVoices_amplitude_conservation [(1 : ℚ)] [(7 : ℚ)] 1 1 rfl (by decide)
      (by decide) (by decide)⟩

/-- C2.  For every input the two returned sequences are index-aligned and
equally long: the number of detunings equals the number of amplitude tables,
both equal the number of voices allocated by `allocateRatios`, and that
count is at most `maxVoices`. -/
theorem allocateVoices_lengths (s a : List ℚ) (m : ℕ) (jnd : ℚ) :
    (allocateVoices s a m jnd).1.length = (allocateVoices s a m jnd).2.length ∧
    (allocateVoices s a m jnd).1.length = (allocateRatios s m jnd).length ∧
    (allocateVoices s a m jnd).1.length ≤ m := by
  have h1 : (allocateVoices s a m jnd).1 = (allocateRatios s m jnd).map valueToCents := rfl
  have h2 : (allocateVoices s a m jnd).2
      = (assignAmplitudes (allocateRatios s m jnd) s a).map (List.map fun o => o.getD 0) := rfl
  rw [h1, h2, List.length_map, List.length_map, assignAmplitudes_length]
  exact ⟨rfl, rfl, allocateRatios_length_le s m jnd⟩

/-- C3.  On the spectrum `[1,2,3,4,5]` with amplitudes `[10,9,8,7,6]`,
`maxVoices = 10` and tolerance `0.5` cents, `allocateVoices` returns exactly
one voice at detuning `0` cents with amplitude table `[0,10,9,8,7,6]`
(harmonic 0 unused, harmonics 1–5 carrying the five amplitudes in input
order), matching the repository's `easily allocates harmonics` test. -/
theorem allocateVoices_exact_harmonics :
    allocateVoices [1, 2, 3, 4, 5] [10, 9, 8, 7, 6] 10 (1 / 2)
      = ([0], [[0, 10, 9, 8, 7, 6]]) := by
  have hcore : allocateVoicesCore [1, 2, 3, 4, 5] [10, 9, 8, 7, 6] 10 (1 / 2)
      = ([1], [[0, 10, 9, 8, 7, 6]]) := by with_unfolding_all rfl
  rw [allocateVoices, hcore]
  have hv : valueToCents 1 = 0 := by
    rw [valueToCents]
    norm_num [Real.logb_one]
  simp [hv]

/-- C8.  The contraction loop terminates unconditionally: run with explicit
fuel `⌈10 * v⌉.toNat + 2`, the step-indexed loop never exhausts its fuel and
converges to the value of `contractSearch`, because the denominator strictly
increases and the guard `0.1 * denominator < baseRatio` must fail before the
fuel runs out.  (The two surrounding `for` loops of `allocateRatios` and
`allocateVoices` are structural recursions over the finite spectrum and
voice lists, so the whole allocator is a total function by construction.) -/
theorem contractSearch_terminates (v r jnd : ℚ) (d : ℕ) :
    contractSearchFuel ((⌈10 * v⌉).toNat + 2) v r jnd d = some (contractSearch v r jnd d) := by
  rw [contractSearch]
  exact contractSearchFuel_converges v r jnd _ d (by omega)

set_option exponentiation.threshold 2000 in
set_option maxRecDepth 8000 in
/-- Counterexample to C6: in the run `allocateRatios [20, 20/13] 1 1` the
single voice `20` accepts the contraction with denominator `13 > 10`
(the guard `0.1 * 13 < 20` holds), and the contracted base ratio
`20 / 13` IS below a tenth of the voice's pre-contraction value `20`:
`20 / 13 < 0.1 * 20 = 2`. -/
theorem contraction_not_tenth_counterexample :
    contractSearch 20 (20 / 13) 1 2 = some (20 / 13) ∧
    allocateRatios [20, 20 / 13] 1 1 = [20 / 13] ∧
    ((20 : ℚ) / 13 < 1 / 10 * 20) := by
  refine ⟨by with_unfolding_all rfl, by with_unfolding_all rfl, by norm_num⟩

/-- C6 amended.  The loop guard `baseRatio > 0.1 * denominator` does not
bound the accepted divisor by 10 and does not keep the contracted ratio
above a tenth of its pre-contraction value (see
`contraction_not_tenth_counterexample`); what it does guarantee is that any
accepted contraction divides by some `k ≥ d` still satisfying the guard
`0.1 * k < baseRatio`, so the post-contraction base ratio stays above the
absolute constant `1/10` (hence positive and finite, the non-degeneracy
the spec's `DegenerateVoice` discussion is after). -/
theorem contraction_above_absolute_tenth (v r jnd : ℚ) (d : ℕ) (hd : 0 < d) (v2 : ℚ)
    (h : contractSearch v r jnd d = some v2) :
    1 / 10 < v2 ∧ ∃ k : ℕ, d ≤ k ∧ (1 : ℚ) / 10 * k < v ∧ v2 = v / k :=
  contractSearch_some v r jnd d v2 hd h

set_option exponentiation.threshold 2000 in
set_option maxRecDepth 8000 in
/-- Witness for the amended C6 at the concrete contraction
`contractSearch 20 (20/13) 1 2 = some (20/13)`. -/
theorem contraction_above_absolute_tenth_witness :
    (0 < 2 ∧ contractSearch 20 (20 / 13) 1 2 = some ((20 : ℚ) / 13)) ∧
    (1 / 10 < (20 : ℚ) / 13 ∧
      ∃ k : ℕ, 2 ≤ k ∧ (1 : ℚ) / 10 * k < 20 ∧ (20 : ℚ) / 13 = 20 / k) :=
  ⟨⟨by decide, by with_unfolding_all rfl⟩,
    contraction_above_absolute_tenth 20 (20 / 13) 1 2 (by decide) (20 / 13)
      (by with_unfolding_all rfl)⟩

/-- C7.  Every output amplitude table is dense from harmonic 0 up to the
highest harmonic that received an assignment: the output tables are the
sparse tables densified pointwise by `Option.getD · 0` (first conjunct, so
lengths agree — third conjunct), the last sparse cell of each table is
always an assigned cell, so the dense length is (max assigned harmonic) + 1
(second conjunct), and every unassigned index below that holds an explicit 0
(fourth conjunct). -/
theorem amplitude_tables_dense (s a : List ℚ) (m : ℕ) (jnd : ℚ) (t : List (Option ℚ))
    (ht : t ∈ assignAmplitudes (allocateRatios s m jnd) s a) :
    ((allocateVoicesCore s a m jnd).2 =
      (assignAmplitudes (allocateRatios s m jnd) s a).map (List.map fun o => o.getD 0)) ∧
    (∀ o, t.getLast? = some o → o.isSome) ∧
    ((t.map fun o => o.getD 0).length = t.length) ∧
    (∀ k, t.getD k none = none → (t.map fun o => o.getD 0).getD k 0 = 0) := by
  refine ⟨rfl, ?_, List.length_map t _, ?_⟩
  · revert t
    show ∀ t ∈ assignAmplitudes (allocateRatios s m jnd) s a,
      ∀ o, t.getLast? = some o → o.isSome
    rw [assignAmplitudes]
    refine foldl_invariant_mem
      (fun tabs : List (List (Option ℚ)) => ∀ t ∈ tabs, ∀ o, t.getLast? = some o → o.isSome) _
      (s.zip a) _ ?_ ?_
    · intro tabs p _ hinv t2 ht2 o ho
      rw [assignStep] at ht2
      rcases List.mem_or_eq_of_mem_set ht2 with hmem | rfl
      · exact hinv t2 hmem o ho
      · refine sparseAdd_last _ _ _ ?_ o ho
        rcases Nat.lt_or_ge (bestVoice (allocateRatios s m jnd) p.1).1 tabs.length with hlt | hge
        · exact hinv _ (getD_mem_of_lt tabs _ [] hlt)
        · rw [List.getD_eq_default _ _ hge]
          intro o2 ho2
          simp at ho2
    · intro t2 ht2 o ho
      rcases List.mem_map.mp ht2 with ⟨_, _, rfl⟩
      simp at ho
  · intro k hk
    rw [getD_map_getD, hk]
    rfl

/-- Witness for C7: on the input `spectrum [1]`, `amplitudes [1]`,
`maxVoices 1`, `tolerance 1` the single sparse table is `[none, some 1]`,
which is a member of the assignment result. -/
theorem amplitude_tables_dense_witness :
    ([none, some (1 : ℚ)] ∈ assignAmplitudes (allocateRatios [1] 1 1) [1] [1]) ∧
    (((allocateVoicesCore [(1 : ℚ)] [(1 : ℚ)] 1 1).2 =
      (assignAmplitudes (allocateRatios [1] 1 1) [1] [1]).map (List.map fun o => o.getD 0)) ∧
    (∀ o, [none, some (1 : ℚ)].getLast? = some o → o.isSome) ∧
    (([none, some (1 : ℚ)].map fun o => o.getD 0).length = [none, some (1 : ℚ)].length) ∧
    (∀ k, [none, some (1 : ℚ)].getD k none = none →
      ([none, some (1 : ℚ)].map fun o => o.getD 0).getD k 0 = 0)) :=
  ⟨by with_unfolding_all decide,
    amplitude_tables_dense [1] [1] 1 1 [none, some (1 : ℚ)] (by with_unfolding_all decide)⟩

/-- C9.  For positive inputs the entry at harmonic index 0 of every
non-empty output amplitude table is exactly 0: a rounded harmonic of 0
yields the infinite error representation, which the strict `<` never
selects, so index 0 of each sparse table keeps its hole and densifies to the
explicit 0 of the repair pass. -/
theorem harmonic_zero_entry (s a : List ℚ) (m : ℕ) (jnd : ℚ)
    (hpos : ∀ r ∈ s, 0 < r) (hm : 0 < m) (hjnd : 0 < jnd) :
    ∀ t ∈ (allocateVoices s a m jnd).2, ∀ x, t.head? = some x → x = 0 := by
  show ∀ t ∈ (allocateVoicesCore s a m jnd).2, ∀ x, t.head? = some x → x = 0
  have hinv : ∀ t ∈ assignAmplitudes (allocateRatios s m jnd) s a, t.getD 0 none = none := by
    rw [assignAmplitudes]
    refine foldl_invariant_mem
      (fun tabs : List (List (Option ℚ)) => ∀ t ∈ tabs, t.getD 0 none = none) _
      (s.zip a) _ ?_ ?_
    · intro tabs p hp hinv
      have hps : 0 < p.1 := by
        obtain ⟨p1, p2⟩ := p
        exact hpos p1 (List.of_mem_zip hp).1
      exact assignStep_zero_inv _ tabs p hps (allocateRatios_pos s m jnd hpos) hinv
    · intro t ht
      rcases List.mem_map.mp ht with ⟨_, _, rfl⟩
      rfl
  intro t ht x hx
  show x = 0
  rcases List.mem_map.mp ht with ⟨sp, hsp, rfl⟩
  have h0 : sp.getD 0 none = none := hinv sp hsp
  cases sp with
  | nil => simp at hx
  | cons o l =>
    obtain rfl : o = none := h0
    have h1 : (List.map (fun o => o.getD 0) (none :: l)).head? = some (0 : ℚ) := rfl
    have h2 := h1.symm.trans hx
    injection h2 with h3
    exact h3.symm

/-- Witness for C9 on the concrete input `spectrum [1]`, `amplitudes [7]`,
`maxVoices 1`, `tolerance 1`. -/
theorem harmonic_zero_entry_witness :
    ((∀ r ∈ [(1 : ℚ)], 0 < r) ∧ 0 < 1 ∧ (0 : ℚ) < 1) ∧
    (∀ t ∈ (allocateVoices [(1 : ℚ)] [(7 : ℚ)] 1 1).2, ∀ x, t.head? = some x → x = 0) :=
  ⟨⟨by decide, by decide, by decide⟩,
    harmonic_zero_entry [1] [7] 1 1 (by decide) (by decide) (by decide)⟩

/-- C10.  When a partial's ratio rounds to harmonic 0 for every allocated
voice, every computed error is the infinite representation, the strict `<`
update never fires, and the partial's amplitude is accumulated at voice 0,
harmonic 1 — the loop's initialization defaults — a cell that was never
computed as its nearest match. -/
theorem default_slot_assignment (vr : List ℚ) (r amp : ℚ) (hne : vr ≠ [])
    (hall : ∀ v ∈ vr, centsErrRep ((jsRound (r / v) : ℚ) * v) r = none) :
    bestVoice vr r = (0, 1) ∧
    assignAmplitudes vr [r] [amp]
      = (vr.map fun _ => ([] : List (Option ℚ))).set 0 [none, some amp] := by
  have hb : bestVoice vr r = (0, 1) := by
    rw [bestVoice, bestLoop_no_update r vr 0 (none, 0, 1) hall]
  refine ⟨hb, ?_⟩
  obtain ⟨v, rest, rfl⟩ : ∃ v rest, vr = v :: rest := by
    cases vr with
    | nil => exact absurd rfl hne
    | cons v rest => exact ⟨v, rest, rfl⟩
  rw [assignAmplitudes]
  show assignStep (v :: rest) ((v :: rest).map fun _ => []) (r, amp) = _
  rw [assignStep, hb]
  have hget : (((v :: rest).map fun _ => ([] : List (Option ℚ)))).getD 0 [] = [] := rfl
  rw [hget]
  have hsp : sparseAdd [] ((0, (1 : ℤ)).2.toNat) amp = [none, some amp] := by
    show sparseAdd [] 1 amp = [none, some amp]
    rw [sparseAdd]
    show (padTo [] 2).set 1 (some (((padTo [] 2).getD 1 none).getD 0 + amp)) = _
    have hp : padTo [] 2 = [none, none] := rfl
    rw [hp]
    show [none, some ((0 : ℚ) + amp)] = [none, some amp]
    rw [zero_add]
  rw [hsp]

/-- Witness for C10 at the concrete input: single voice `[10]`, partial
`r = 1` (which rounds to harmonic 0 of the voice), amplitude `5`. -/
theorem default_slot_assignment_witness :
    (([(10 : ℚ)] ≠ []) ∧
      (∀ v ∈ [(10 : ℚ)], centsErrRep ((jsRound (1 / v) : ℚ) * v) 1 = none)) ∧
    (bestVoice [(10 : ℚ)] 1 = (0, 1) ∧
      assignAmplitudes [(10 : ℚ)] [1] [5]
        = (([(10 : ℚ)]).map fun _ => ([] : List (Option ℚ))).set 0 [none, some 5]) :=
  ⟨⟨by decide, by with_unfolding_all decide⟩,
    default_slot_assignment [10] 1 5 (by decide) (by with_unfolding_all decide)⟩

/-! ### The best-voice scan computes a first-wins argmin -/

/-- The Boolean error comparison is the strict order of the linear order
`WithTop ℚ` under the interpretation `none = ∞`. -/
theorem errLt_iff_toWT (e f : Option ℚ) : errLt e f = true ↔ toWT e < toWT f := by
  cases e <;> cases f <;>
    simp [errLt, toWT, WithTop.coe_lt_top, WithTop.coe_lt_coe]

/-- The element of the full list at the junction index of an append
decomposition. -/
theorem getD_append_length (pre : List ℚ) (v : ℚ) (tl : List ℚ) :
    (pre ++ v :: tl).getD pre.length 0 = v := by
  rw [List.getD_append_right _ _ _ _ (le_refl _)]
  simp

/-- Invariant-carrying specification of the best-voice scan of lines 63–74:
running the scan over the suffix `rest` of the voice list `vr` from index
`pre.length`, with an accumulator that correctly summarizes the prefix
(its error bounds every prefix error from below, and its index either is
the untouched initialization or points at the first prefix entry attaining
the accumulated least error), produces an accumulator that summarizes all
of `vr` the same way. -/
theorem bestLoop_spec (vr : List ℚ) (r : ℚ) :
    ∀ (rest pre : List ℚ) (least : Option ℚ) (bi : ℕ) (bh : ℤ),
      vr = pre ++ rest →
      (∀ k, k < pre.length → toWT least ≤ toWT (voiceErr vr r k)) →
      ((least = none ∧ bi = 0 ∧ bh = 1) ∨
        (bi < pre.length ∧ toWT (voiceErr vr r bi) = toWT least ∧
          ∀ k, k < bi → toWT least < toWT (voiceErr vr r k))) →
      (∀ k, k < vr.length →
          toWT (bestLoop r rest pre.length (least, bi, bh)).1 ≤ toWT (voiceErr vr r k)) ∧
      (((bestLoop r rest pre.length (least, bi, bh)).1 = none ∧
          (bestLoop r rest pre.length (least, bi, bh)).2.1 = 0 ∧
          (bestLoop r rest pre.length (least, bi, bh)).2.2 = 1) ∨
        ((bestLoop r rest pre.length (least, bi, bh)).2.1 < vr.length ∧
          toWT (voiceErr vr r (bestLoop r rest pre.length (least, bi, bh)).2.1)
            = toWT (bestLoop r rest pre.length (least, bi, bh)).1 ∧
          ∀ k, k < (bestLoop r rest pre.length (least, bi, bh)).2.1 →
            toWT (bestLoop r rest pre.length (least, bi, bh)).1
              < toWT (voiceErr vr r k))) := by
  intro rest
  induction rest with
  | nil =>
    intro pre least bi bh hv h1 h2
    have hlen : vr.length = pre.length := by rw [hv, List.append_nil]
    refine ⟨fun k hk => h1 k (by omega), ?_⟩
    rcases h2 with h2 | ⟨hbi, heq, hlt⟩
    · exact Or.inl h2
    · exact Or.inr ⟨by show bi < vr.length; omega, heq, hlt⟩
  | cons v tl ih =>
    intro pre least bi bh hv h1 h2
    have hvv : voiceErr vr r pre.length = centsErrRep ((jsRound (r / v) : ℚ) * v) r := by
      rw [voiceErr, hv, getD_append_length]
    have hv' : vr = (pre ++ [v]) ++ tl := by
      rw [List.append_assoc]
      exact hv
    have hlen' : (pre ++ [v]).length = pre.length + 1 := by simp
    rw [bestLoop]
    by_cases hupd : errLt (centsErrRep ((jsRound (r / v) : ℚ) * v) r) least = true
    · have hlt : toWT (centsErrRep ((jsRound (r / v) : ℚ) * v) r) < toWT least :=
        (errLt_iff_toWT _ _).mp hupd
      rw [if_pos hupd]
      have := ih (pre ++ [v]) (centsErrRep ((jsRound (r / v) : ℚ) * v) r) pre.length
        (jsRound (r / v)) hv'
        (by
          intro k hk
          rw [hlen'] at hk
          rcases Nat.lt_or_ge k pre.length with hk2 | hk2
          · exact le_of_lt (lt_of_lt_of_le hlt (h1 k hk2))
          · have : k = pre.length := by omega
            rw [this, hvv])
        (Or.inr ⟨by omega, by rw [hvv], by
          intro k hk
          exact lt_of_lt_of_le hlt (h1 k hk)⟩)
      rw [hlen'] at this
      exact this
    · have hge : toWT least ≤ toWT (centsErrRep ((jsRound (r / v) : ℚ) * v) r) := by
        by_contra hc
        push_neg at hc
        exact hupd ((errLt_iff_toWT _ _).mpr hc)
      rw [if_neg hupd]
      have := ih (pre ++ [v]) least bi bh hv'
        (by
          intro k hk
          rw [hlen'] at hk
          rcases Nat.lt_or_ge k pre.length with hk2 | hk2
          · exact h1 k hk2
          · have : k = pre.length := by omega
            rw [this, hvv]
            exact hge)
        (by
          rcases h2 with h2 | ⟨hbi, heq, hlt2⟩
          · exact Or.inl h2
          · exact Or.inr ⟨by omega, heq, hlt2⟩)
      rw [hlen'] at this
      exact this

/-- C5.  In the amplitude-assignment stage every partial is matched against
every allocated voice with no tolerance gate anywhere (`bestVoice` takes no
tolerance argument), and the selected voice index minimises the error
representation over all voices, the first voice winning exact ties because
the scan updates only on a strict `<` comparison: no voice's error is
strictly below the selected voice's error, and the selected voice's error is
strictly below that of every voice of smaller index. -/
theorem bestVoice_argmin (vr : List ℚ) (r : ℚ) (hne : vr ≠ []) :
    (bestVoice vr r).1 < vr.length ∧
    (∀ k, k < vr.length →
      errLt (voiceErr vr r k) (voiceErr vr r (bestVoice vr r).1) = false) ∧
    (∀ k, k < (bestVoice vr r).1 →
      errLt (voiceErr vr r (bestVoice vr r).1) (voiceErr vr r k) = true) := by
  have hs := bestLoop_spec vr r vr [] none 0 1 (by simp)
    (by intro k hk; simp at hk) (Or.inl ⟨rfl, rfl, rfl⟩)
  simp only [List.length_nil] at hs
  obtain ⟨hmin, hcase⟩ := hs
  have hbv : bestVoice vr r = (bestLoop r vr 0 (none, 0, 1)).2 := rfl
  rcases hcase with ⟨hnone, hbi, hbh⟩ | ⟨hbi, heq, hfirst⟩
  · have htop : ∀ k, k < vr.length → toWT (voiceErr vr r k) = ⊤ := by
      intro k hk
      have := hmin k hk
      rw [hnone] at this
      exact top_le_iff.mp this
    refine ⟨?_, ?_, ?_⟩
    · rw [hbv, hbi]
      exact List.length_pos.mpr hne
    · intro k hk
      by_contra hc
      have htrue : errLt (voiceErr vr r k) (voiceErr vr r (bestVoice vr r).1) = true := by
        cases hcc : errLt (voiceErr vr r k) (voiceErr vr r (bestVoice vr r).1)
        · exact absurd hcc hc
        · rfl
      have hlt := (errLt_iff_toWT _ _).mp htrue
      rw [htop k hk] at hlt
      exact absurd hlt not_top_lt
    · intro k hk
      rw [hbv, hbi] at hk
      omega
  · refine ⟨?_, ?_, ?_⟩
    · rw [hbv]
      exact hbi
    · intro k hk
      by_contra hc
      have htrue : errLt (voiceErr vr r k) (voiceErr vr r (bestVoice vr r).1) = true := by
        cases hcc : errLt (voiceErr vr r k) (voiceErr vr r (bestVoice vr r).1)
        · exact absurd hcc hc
        · rfl
      have hlt := (errLt_iff_toWT _ _).mp htrue
      rw [hbv, heq] at hlt
      exact absurd (lt_of_le_of_lt (hmin k hk) hlt) (lt_irrefl _)
    · intro k hk
      rw [hbv] at hk
      refine (errLt_iff_toWT _ _).mpr ?_
      rw [hbv, heq]
      exact hfirst k hk

/-- Witness for C5 at the concrete voice list `[1]` and partial `1`. -/
theorem bestVoice_argmin_witness :
    (([(1 : ℚ)] : List ℚ) ≠ []) ∧
    ((bestVoice [(1 : ℚ)] 1).1 < [(1 : ℚ)].length ∧
      (∀ k, k < [(1 : ℚ)].length →
        errLt (voiceErr [(1 : ℚ)] 1 k) (voiceErr [(1 : ℚ)] 1 (bestVoice [(1 : ℚ)] 1).1) = false) ∧
      (∀ k, k < (bestVoice [(1 : ℚ)] 1).1 →
        errLt (voiceErr [(1 : ℚ)] 1 (bestVoice [(1 : ℚ)] 1).1) (voiceErr [(1 : ℚ)] 1 k) = true)) :=
  ⟨by decide, bestVoice_argmin [(1 : ℚ)] 1 (by decide)⟩

/-! ### The `EPSILON` acceptance test rejects every non-exact match of
moderate denominator (Bernoulli), letting the strict early-allocation
tolerance be evaluated without the astronomically large power of the
literal test. -/

/-- A finite error representation is at least `1`. -/
theorem centsErrRep_one_le (a b m : ℚ) (hm : centsErrRep a b = some m) : 1 ≤ m := by
  have hx : 0 < a / b := by
    by_contra hc
    rw [centsErrRep, if_neg hc] at hm
    exact absurd hm (by simp)
  rw [centsErrRep, if_pos hx] at hm
  obtain rfl : symRatio (a / b) = m := by injection hm
  rw [symRatio]
  rcases le_total (a / b) 1 with h | h
  · exact le_max_of_le_right (one_le_inv_iff₀.mpr ⟨hx, h⟩)
  · exact le_max_of_le_left h

/-- Any non-exact error of denominator at most `1200 * 10^6` fails the
`EPSILON = 1e-6` cents acceptance test: `m ≥ 1 + 1/den` and Bernoulli give
`m ^ 1200000000 ≥ 1 + 1200000000 / den ≥ 2 > 2 ^ EPSILON.num`. -/
theorem errLtTol_EPSILON_false (a b m : ℚ)
    (hm : centsErrRep a b = some m) (hne : m ≠ 1) (hden : m.den ≤ 1200000000) :
    errLtTol a b EPSILON = false := by
  have hm1 : 1 ≤ m := centsErrRep_one_le a b m hm
  have hgt : 1 < m := lt_of_le_of_ne hm1 (Ne.symm hne)
  have hd : (0 : ℚ) < (m.den : ℚ) := by exact_mod_cast m.pos
  have hm2 : ((m.den : ℚ)) < (m.num : ℚ) := by
    have hgt' := hgt
    rw [← Rat.num_div_den m] at hgt'
    exact (one_lt_div hd).mp hgt'
  have hnn : (0 : ℤ) ≤ m.num := by
    have : (0 : ℚ) < (m.num : ℚ) := lt_trans hd hm2
    exact_mod_cast le_of_lt this
  -- Bernoulli: (1 + 1/den) ^ E ≥ 1 + E/den ≥ 2 for den ≤ E
  have hge0 : (0 : ℚ) ≤ 1 / (m.den : ℚ) := by positivity
  have hb := one_add_mul_le_pow
    (le_trans (by norm_num : (-2 : ℚ) ≤ 0) hge0) (1200 * 1000000)
  have hE2 : (2 : ℚ) ≤ (1 + 1 / (m.den : ℚ)) ^ (1200 * 1000000) := by
    have h2 : (1 : ℚ) ≤ (1200 * 1000000 : ℕ) * (1 / (m.den : ℚ)) := by
      rw [mul_one_div, le_div_iff₀ hd]
      have hden' : (m.den : ℚ) ≤ ((1200 * 1000000 : ℕ) : ℚ) := by
        exact_mod_cast hden
      linarith only [hden']
    -- keep the large power opaque: chain through `hb` without letting any
    -- tactic normalize it (linarith only, so the context power is untouched)
    calc (2 : ℚ) = 1 + 1 := by norm_num
      _ ≤ 1 + (1200 * 1000000 : ℕ) * (1 / (m.den : ℚ)) := by linarith only [h2]
      _ ≤ (1 + 1 / (m.den : ℚ)) ^ (1200 * 1000000) := hb
  have hbase : (m.den : ℚ) * (1 + 1 / (m.den : ℚ)) ≤ (m.num : ℚ) := by
    rw [mul_add, mul_one, mul_one_div, div_self (ne_of_gt hd)]
    have hsum : (m.den : ℚ) + 1 ≤ (m.num : ℚ) := by
      have h1 : (m.den : ℤ) < m.num := by exact_mod_cast hm2
      have h2 : (m.den : ℤ) + 1 ≤ m.num := by omega
      exact_mod_cast h2
    linarith only [hsum]
  have hmono : ((m.den : ℚ) * (1 + 1 / (m.den : ℚ))) ^ (1200 * 1000000)
      ≤ (m.num : ℚ) ^ (1200 * 1000000) :=
    pow_le_pow_left (by positivity) hbase _
  have key : 2 * (m.den : ℚ) ^ (1200 * 1000000) ≤ (m.num : ℚ) ^ (1200 * 1000000) := by
    have hdp : (0 : ℚ) < (m.den : ℚ) ^ (1200 * 1000000) := pow_pos hd _
    calc 2 * (m.den : ℚ) ^ (1200 * 1000000)
        ≤ (1 + 1 / (m.den : ℚ)) ^ (1200 * 1000000) * (m.den : ℚ) ^ (1200 * 1000000) :=
          mul_le_mul_of_nonneg_right hE2 (le_of_lt hdp)
      _ = ((m.den : ℚ) * (1 + 1 / (m.den : ℚ))) ^ (1200 * 1000000) := by
          rw [mul_pow]
          exact mul_comm _ _
      _ ≤ _ := hmono
  have keyN : 2 * m.den ^ (1200 * 1000000) ≤ m.num.toNat ^ (1200 * 1000000) := by
    have c1 : ((2 * m.den ^ (1200 * 1000000) : ℕ) : ℚ) = 2 * (m.den : ℚ) ^ (1200 * 1000000) := by
      rw [Nat.cast_mul, Nat.cast_pow, Nat.cast_ofNat]
    have c2 : ((m.num.toNat ^ (1200 * 1000000) : ℕ) : ℚ) = (m.num : ℚ) ^ (1200 * 1000000) := by
      rw [Nat.cast_pow]
      have hcn : ((m.num.toNat : ℕ) : ℤ) = m.num := Int.toNat_of_nonneg hnn
      have h4 : ((m.num.toNat : ℕ) : ℚ) = ((m.num : ℤ) : ℚ) := by
        rw [← hcn]
        exact (Int.cast_natCast _).symm
      rw [h4]
    have h1 : ((2 * m.den ^ (1200 * 1000000) : ℕ) : ℚ)
        ≤ ((m.num.toNat ^ (1200 * 1000000) : ℕ) : ℚ) := by
      rw [c1, c2]
      exact key
    exact Nat.cast_le.mp h1
  rw [errLtTol, hm]
  show (if m = 1 then decide (0 < EPSILON)
    else if EPSILON.num ≤ 0 then false
    else decide (m.num.toNat ^ (1200 * EPSILON.den)
      < 2 ^ EPSILON.num.toNat * m.den ^ (1200 * EPSILON.den))) = false
  rw [if_neg hne]
  have he1 : EPSILON.num = 1 := by with_unfolding_all rfl
  have he2 : EPSILON.den = 1000000 := by with_unfolding_all rfl
  rw [he1, he2, if_neg (by norm_num : ¬ (1 : ℤ) ≤ 0)]
  have h3 : (1 : ℤ).toNat = 1 := rfl
  rw [h3, pow_one]
  exact decide_eq_false (Nat.not_lt.mpr keyN)

/-- The step-(a) test of the run `allocStep 2 3 [1] (1001/1000)` compares
the partial `1001/1000` (about 1.73 cents from harmonic 1 of the voice `1`)
against `EPSILON`, not against the caller's tolerance `3`, and rejects. -/
theorem eps_rejects_1001 :
    errLtTol ((jsRound ((1001 / 1000 : ℚ) / 1) : ℚ) * 1) (1001 / 1000) EPSILON = false := by
  have h1 : ((jsRound ((1001 / 1000 : ℚ) / 1) : ℚ) * 1) = 1 := by with_unfolding_all rfl
  rw [h1]
  refine errLtTol_EPSILON_false 1 (1001 / 1000) (1001 / 1000) ?_ ?_ ?_
  · with_unfolding_all rfl
  · with_unfolding_all decide
  · have hden : ((1001 : ℚ) / 1000).den = 1000 := by with_unfolding_all rfl
    rw [hden]
    norm_num

set_option exponentiation.threshold 2000 in
set_option maxRecDepth 8000 in
/-- C4.  The per-ratio acceptance tolerance of the voice scan is `EPSILON`
while fewer than `maxVoices` voices exist and the caller's tolerance once
capacity is reached, while the contraction test always uses the caller's
tolerance (third conjunct: the scan is invoked with contraction tolerance
`jnd` and step tolerance `if length < maxVoices then EPSILON else jnd`).
The two concrete runs witness that each tolerance is live: with spare
capacity (`maxVoices = 2`) the partial `1001/1000` (≈1.73 cents from
harmonic 1 of voice `1`, within the caller's 3 cents) fails the `EPSILON`
test and is instead absorbed by a contraction, which accepts under the
caller's tolerance `jnd = 3` and halves the voice to `1/2`; at capacity
(`maxVoices = 1`) the same partial passes the step test with `jnd = 3` and
the voice list is unchanged. -/
theorem allocStep_tolerance_selection :
    allocStep 2 3 [1] (1001 / 1000) = [1 / 2] ∧
    allocStep 1 3 [1] (1001 / 1000) = [1] ∧
    ∀ (m : ℕ) (jnd : ℚ) (res : List ℚ) (r : ℚ),
      allocStep m jnd res r =
        match scanVoices jnd (if res.length < m then EPSILON else jnd) r res with
        | some res2 => res2
        | none => if res.length < m then res ++ [r] else res := by
  refine ⟨?_, by with_unfolding_all rfl, fun m jnd res r => rfl⟩
  have hc : contractSearch 1 (1001 / 1000) 3 2 = some (1 / 2) := by with_unfolding_all rfl
  have hscan : scanVoices 3 EPSILON (1001 / 1000) [1] = some [1 / 2] := by
    rw [scanVoices, eps_rejects_1001]
    simp only [Bool.false_eq_true, if_false]
    rw [hc]
  have hif : (if ([(1 : ℚ)] : List ℚ).length < 2 then EPSILON else (3 : ℚ)) = EPSILON := rfl
  rw [allocStep, hif, hscan]

/-! ### Bridge between the rational error representation and the source's
real-valued `centsError` -/

/-- The metric `centsError(a, b) = Math.abs(valueToCents(a / b))` (lines 7–9 of
`harmonic-allocator.ts`), over the reals. -/
noncomputable def centsError (a b : ℚ) : ℝ := |valueToCents (a / b)|

/-- The value `symRatio x` of a positive rational `x` is at least one. -/
theorem one_le_symRatio (x : ℚ) (hx : 0 < x) : 1 ≤ symRatio x := by
  rw [symRatio]
  rcases le_total x 1 with h | h
  · exact le_max_of_le_right (one_le_inv_iff₀.mpr ⟨hx, h⟩)
  · exact le_max_of_le_left h

/-- The identity `|log2 x| = log2 (max x x⁻¹)` for positive rational `x`: the stored
`symRatio` value is an order-faithful encoding of the absolute log
distance. -/
theorem abs_logb_eq (x : ℚ) (hx : 0 < x) :
    |Real.logb 2 ((x : ℚ) : ℝ)| = Real.logb 2 ((symRatio x : ℚ) : ℝ) := by
  have hxR : (0 : ℝ) < (x : ℝ) := by exact_mod_cast hx
  rcases le_total 1 x with h | h
  · have h1 : (1 : ℝ) ≤ (x : ℝ) := by exact_mod_cast h
    have hmax : symRatio x = x := by
      rw [symRatio, max_eq_left]
      have hinv : x⁻¹ ≤ 1 := by
        rw [inv_le_one_iff₀]
        right; exact h
      linarith
    rw [hmax, abs_of_nonneg (Real.logb_nonneg one_lt_two h1)]
  · have hx1 : (x : ℝ) ≤ 1 := by exact_mod_cast h
    have hmax : symRatio x = x⁻¹ := by
      rw [symRatio, max_eq_right]
      have hinv : 1 ≤ x⁻¹ := one_le_inv_iff₀.mpr ⟨hx, h⟩
      linarith
    rw [hmax]
    push_cast
    rw [Real.logb_inv, abs_of_nonpos ((Real.logb_nonpos_iff one_lt_two hxR).mpr hx1)]

/-- The real cents error of a positive ratio in terms of its
representation. -/
theorem centsError_eq (a b : ℚ) (h : 0 < a / b) :
    centsError a b = Real.logb 2 ((symRatio (a / b) : ℚ) : ℝ) * 1200 := by
  rw [centsError, valueToCents, abs_mul, abs_logb_eq _ h,
    abs_of_nonneg (by norm_num : (0 : ℝ) ≤ 1200)]

/-- The Boolean comparison `errLt` decides exactly the comparison of the
source's real cents errors, for ratios that are positive (the only case
arising under the spec's input contract besides the harmonic-0 infinite
error, which `errLt` handles like IEEE `Infinity`). -/
theorem errLt_iff_centsError (a b c d : ℚ) (h1 : 0 < a / b) (h2 : 0 < c / d) :
    (errLt (centsErrRep a b) (centsErrRep c d) = true ↔
      centsError a b < centsError c d) := by
  have hp1 : (0 : ℝ) < ((symRatio (a / b) : ℚ) : ℝ) := by
    have := one_le_symRatio _ h1
    have : (1 : ℝ) ≤ ((symRatio (a / b) : ℚ) : ℝ) := by exact_mod_cast this
    linarith
  have hp2 : (0 : ℝ) < ((symRatio (c / d) : ℚ) : ℝ) := by
    have := one_le_symRatio _ h2
    have : (1 : ℝ) ≤ ((symRatio (c / d) : ℚ) : ℝ) := by exact_mod_cast this
    linarith
  rw [centsErrRep, if_pos h1, centsErrRep, if_pos h2, errLt,
    centsError_eq a b h1, centsError_eq c d h2,
    mul_lt_mul_right (by norm_num : (0 : ℝ) < 1200),
    Real.logb_lt_logb_iff one_lt_two hp1 hp2, decide_eq_true_eq, Rat.cast_lt]

/-- The Boolean tolerance test `errLtTol` decides exactly the source's
comparison `centsError a b < tol`, for a positive ratio `a / b`. -/
theorem errLtTol_iff_centsError (a b tol : ℚ) (h1 : 0 < a / b) :
    (errLtTol a b tol = true ↔ centsError a b < (tol : ℝ)) := by
  have hm : centsErrRep a b = some (symRatio (a / b)) := by rw [centsErrRep, if_pos h1]
  have hm1 : 1 ≤ symRatio (a / b) := one_le_symRatio _ h1
  have hce : centsError a b = Real.logb 2 ((symRatio (a / b) : ℚ) : ℝ) * 1200 :=
    centsError_eq a b h1
  rw [errLtTol, hm]
  show (if symRatio (a / b) = 1 then decide (0 < tol)
    else if tol.num ≤ 0 then false
    else decide ((symRatio (a / b)).num.toNat ^ (1200 * tol.den)
      < 2 ^ tol.num.toNat * (symRatio (a / b)).den ^ (1200 * tol.den))) = true
    ↔ centsError a b < (tol : ℝ)
  by_cases hme : symRatio (a / b) = 1
  · rw [if_pos hme, hce, hme]
    push_cast
    rw [Real.logb_one, zero_mul, decide_eq_true_eq]
    constructor <;> intro h <;> exact_mod_cast h
  · rw [if_neg hme]
    have hgt : 1 < symRatio (a / b) := lt_of_le_of_ne hm1 (Ne.symm hme)
    have hgtR : (1 : ℝ) < ((symRatio (a / b) : ℚ) : ℝ) := by exact_mod_cast hgt
    have hlogb : 0 < Real.logb 2 ((symRatio (a / b) : ℚ) : ℝ) :=
      Real.logb_pos one_lt_two hgtR
    by_cases htn : tol.num ≤ 0
    · rw [if_pos htn]
      have htol : (tol : ℝ) ≤ 0 := by
        have h0 : tol ≤ 0 := by
          by_contra hc
          push_neg at hc
          exact absurd (Rat.num_pos.mpr hc) (by omega)
        exact_mod_cast h0
      simp only [Bool.false_eq_true, false_iff, not_lt]
      rw [hce]
      nlinarith
    · rw [if_neg htn]
      push_neg at htn
      have hnum0 : 0 < (symRatio (a / b)).num := Rat.num_pos.mpr (by linarith)
      have hm0 : (0 : ℝ) < ((symRatio (a / b) : ℚ) : ℝ) := by linarith
      have hq : (0 : ℝ) < ((symRatio (a / b)).den : ℝ) := by
        exact_mod_cast (symRatio (a / b)).pos
      have hqE : (0 : ℝ) < ((symRatio (a / b)).den : ℝ) ^ (1200 * tol.den) :=
        pow_pos hq _
      have hdq : (0 : ℝ) < (tol.den : ℝ) := by exact_mod_cast tol.pos
      have hcast : ((symRatio (a / b) : ℚ) : ℝ)
          = ((symRatio (a / b)).num : ℝ) / ((symRatio (a / b)).den : ℝ) :=
        Rat.cast_def _
      have hn0 : (((symRatio (a / b)).num.toNat : ℕ) : ℝ) = ((symRatio (a / b)).num : ℝ) := by
        rw [← Int.cast_natCast (R := ℝ), Int.toNat_of_nonneg (le_of_lt hnum0)]
      have c1 : (((symRatio (a / b)).num.toNat ^ (1200 * tol.den) : ℕ) : ℝ)
          = ((symRatio (a / b)).num : ℝ) ^ (1200 * tol.den) := by
        rw [Nat.cast_pow, hn0]
      have c2 : ((2 ^ tol.num.toNat * (symRatio (a / b)).den ^ (1200 * tol.den) : ℕ) : ℝ)
          = 2 ^ tol.num.toNat * ((symRatio (a / b)).den : ℝ) ^ (1200 * tol.den) := by
        push_cast
        rfl
      have k1 : ((symRatio (a / b)).num.toNat ^ (1200 * tol.den)
            < 2 ^ tol.num.toNat * (symRatio (a / b)).den ^ (1200 * tol.den))
          ↔ ((symRatio (a / b)).num : ℝ) ^ (1200 * tol.den)
            < 2 ^ tol.num.toNat * ((symRatio (a / b)).den : ℝ) ^ (1200 * tol.den) := by
        rw [← Nat.cast_lt (α := ℝ), c1, c2]
      have k2 : (((symRatio (a / b)).num : ℝ) ^ (1200 * tol.den)
            < 2 ^ tol.num.toNat * ((symRatio (a / b)).den : ℝ) ^ (1200 * tol.den))
          ↔ ((symRatio (a / b) : ℚ) : ℝ) ^ (1200 * tol.den) < (2 : ℝ) ^ tol.num.toNat := by
        rw [hcast, div_pow, div_lt_iff₀ hqE]
      have k3 : (((symRatio (a / b) : ℚ) : ℝ) ^ (1200 * tol.den) < (2 : ℝ) ^ tol.num.toNat)
          ↔ ((1200 * tol.den : ℕ) : ℝ) * Real.logb 2 ((symRatio (a / b) : ℚ) : ℝ)
            < ((tol.num.toNat : ℕ) : ℝ) * Real.logb 2 (2 : ℝ) := by
        rw [← Real.logb_lt_logb_iff one_lt_two (pow_pos hm0 _) (pow_pos two_pos _),
          Real.logb_pow, Real.logb_pow]
      have k4 : (((1200 * tol.den : ℕ) : ℝ) * Real.logb 2 ((symRatio (a / b) : ℚ) : ℝ)
            < ((tol.num.toNat : ℕ) : ℝ) * Real.logb 2 (2 : ℝ))
          ↔ Real.logb 2 ((symRatio (a / b) : ℚ) : ℝ) * 1200 < (tol : ℝ) := by
        have hn : ((tol.num.toNat : ℕ) : ℝ) = (tol.num : ℝ) := by
          rw [← Int.cast_natCast (R := ℝ), Int.toNat_of_nonneg (le_of_lt htn)]
        have hE : ((1200 * tol.den : ℕ) : ℝ) = 1200 * (tol.den : ℝ) := by
          push_cast
          rfl
        have htolcast : ((tol : ℚ) : ℝ) = (tol.num : ℝ) / (tol.den : ℝ) := Rat.cast_def _
        rw [hn, hE, Real.logb_self_eq_one one_lt_two, mul_one, htolcast,
          lt_div_iff₀ hdq]
        constructor <;> intro hh <;> nlinarith
      rw [decide_eq_true_eq, hce]
      exact k1.trans (k2.trans (k3.trans k4))

end AperiodicOsc
